import Mathlib

/-!
Verification of the audio feature-extraction pipeline demonstrated by the
repository's scripts: STFT and its inverse, mel filterbank construction,
mel-spectrogram, and MFCC.  The scripts only call into a DSP library, so the
numeric core those calls wrap (framing, windowing, DFT, overlap-add,
filterbank projection, log compression, DCT, liftering) is modelled here from
the specification's component contracts, over the real and complex numbers.
-/

open Finset

noncomputable section AudioPipeline

/-- Modelled from the spec (section 4.2, FFT engine): the complex exponential
kernel `exp(2·π·i·a/n)`; `a` ranges over integers. -/
def cexp (n : ℕ) (a : ℤ) : ℂ :=
  Complex.exp (2 * Real.pi * Complex.I * a / n)

theorem cexp_add (n : ℕ) (a b : ℤ) : cexp n (a + b) = cexp n a * cexp n b := by
  unfold cexp
  rw [← Complex.exp_add]
  congr 1
  push_cast
  ring

theorem cexp_int_mul (n : ℕ) (hn : 0 < n) (j : ℤ) : cexp n (n * j) = 1 := by
  unfold cexp
  have hne : (n : ℂ) ≠ 0 := by exact_mod_cast hn.ne'
  have harg : (2 * Real.pi * Complex.I * ((n : ℤ) * j : ℤ) / n : ℂ)
      = (j : ℤ) * (2 * Real.pi * Complex.I) := by
    push_cast
    field_simp
    ring_nf
  rw [harg, Complex.exp_int_mul_two_pi_mul_I]

theorem cexp_ne_one (n : ℕ) (hn : 0 < n) (a : ℤ) (h : ¬ ((n : ℤ) ∣ a)) :
    cexp n a ≠ 1 := by
  intro hone
  unfold cexp at hone
  rw [Complex.exp_eq_one_iff] at hone
  obtain ⟨k, hk⟩ := hone
  apply h
  have hπI : (2 * (Real.pi : ℂ) * Complex.I) ≠ 0 := by
    simp [Real.pi_ne_zero, Complex.I_ne_zero]
  have hne : (n : ℂ) ≠ 0 := by exact_mod_cast hn.ne'
  have h3 : (2 * (Real.pi : ℂ) * Complex.I) * ((a : ℂ) / n)
      = (2 * (Real.pi : ℂ) * Complex.I) * (k : ℂ) := by
    rw [mul_div_assoc] at hk
    rw [hk]
    ring
  have h4 : (a : ℂ) / n = (k : ℂ) := mul_left_cancel₀ hπI h3
  have h5 : (a : ℂ) = (k : ℂ) * n := by
    rw [div_eq_iff hne] at h4
    exact h4
  refine ⟨k, ?_⟩
  have : (a : ℂ) = ((n * k : ℤ) : ℂ) := by push_cast; rw [h5]; ring
  exact_mod_cast this

theorem cexp_mul_nat (n : ℕ) (d : ℤ) (k : ℕ) : cexp n (d * k) = cexp n d ^ k := by
  induction k with
  | zero =>
      simp [cexp]
  | succ k ih =>
      have : d * ((k : ℤ) + 1) = d * k + d := by ring
      rw [show ((k + 1 : ℕ) : ℤ) = (k : ℤ) + 1 by push_cast; ring, this,
        cexp_add, ih, pow_succ]

/-- Geometric sum of the DFT kernel: the sum over one period is `n` when `n`
divides the frequency offset and `0` otherwise. -/
theorem sum_cexp (n : ℕ) (hn : 0 < n) (d : ℤ) :
    ∑ k ∈ Finset.range n, cexp n (d * k) = if (n : ℤ) ∣ d then (n : ℂ) else 0 := by
  have hpow : ∀ k : ℕ, cexp n (d * k) = cexp n d ^ k := fun k => cexp_mul_nat n d k
  by_cases hdvd : (n : ℤ) ∣ d
  · rw [if_pos hdvd]
    obtain ⟨j, hj⟩ := hdvd
    have hone : cexp n d = 1 := by rw [hj]; exact cexp_int_mul n hn j
    simp [hpow, hone]
  · have hne1 : cexp n d ≠ 1 := cexp_ne_one n hn d hdvd
    have hgeom : ∑ k ∈ Finset.range n, cexp n d ^ k
        = (cexp n d ^ n - 1) / (cexp n d - 1) := geom_sum_eq hne1 n
    have hpown : cexp n d ^ n = 1 := by
      rw [← cexp_mul_nat, mul_comm]
      exact cexp_int_mul n hn d
    simp only [hpow]
    rw [hgeom, hpown]
    simp [hdvd]

/-- Modelled from the spec (section 3, Window): periodic Hann window of
length `M`, `hann M t = (1 - cos(2·π·t/M)) / 2`. -/
def hann (M : ℕ) (t : ℕ) : ℝ := 1 / 2 * (1 - Real.cos (2 * Real.pi * t / M))

/-- Modelled from the spec (section 4.1): the analysis window of length `win`
zero-padded, centered, within the length-`n` FFT buffer. -/
def wPad (w : ℕ → ℝ) (win n : ℕ) (t : ℕ) : ℝ :=
  if (n - win) / 2 ≤ t ∧ t < (n - win) / 2 + win then w (t - (n - win) / 2) else 0

/-- Modelled from the spec (section 4.1): the waveform of length `N` seen
through symmetric zero-padding by `pad` samples on each side. -/
def padSig (x : ℕ → ℝ) (N pad : ℕ) (p : ℕ) : ℝ :=
  if pad ≤ p ∧ p < pad + N then x (p - pad) else 0

/-- Modelled from the spec (section 4.1): the ordered frame start positions —
every multiple of the hop `h` at which a full `n`-sample frame still fits in
the (padded) signal of length `M`. -/
def frameStarts (M n h : ℕ) : List ℕ :=
  (List.range (M + 1)).filter (fun s => s % h = 0 ∧ s + n ≤ M)

/-- Number of STFT frames over a (padded) signal of length `M`. -/
def numFrames (M n h : ℕ) : ℕ := (frameStarts M n h).length

/-- Counting the frames: over a signal of length `M` with `n ≤ M` and a
positive hop `h`, the framer produces `1 + ⌊(M - n)/h⌋` frames. -/
theorem numFrames_eq (M n h : ℕ) (hM : n ≤ M) (hh : 0 < h) :
    numFrames M n h = 1 + (M - n) / h := by
  have hbridge : numFrames M n h
      = ((Finset.range (M + 1)).filter (fun s => s % h = 0 ∧ s + n ≤ M)).card := rfl
  rw [hbridge]
  have hcard : ((Finset.range (M + 1)).filter (fun s => s % h = 0 ∧ s + n ≤ M)).card
      = (Finset.range ((M - n) / h + 1)).card := by
    apply Finset.card_bij' (fun s _ => s / h) (fun q _ => q * h)
    · intro s hs
      rw [Finset.mem_filter] at hs
      obtain ⟨-, hmod, hfit⟩ := hs
      rw [Finset.mem_range]
      have hsle : s ≤ M - n := by omega
      have := Nat.div_le_div_right (c := h) hsle
      omega
    · intro q hq
      rw [Finset.mem_range] at hq
      rw [Finset.mem_filter, Finset.mem_range]
      have hqle : q ≤ (M - n) / h := by omega
      have h1 : q * h ≤ ((M - n) / h) * h := Nat.mul_le_mul_right h hqle
      have h2 : ((M - n) / h) * h ≤ M - n := Nat.div_mul_le_self _ _
      refine ⟨by omega, Nat.mul_mod_left q h, by omega⟩
    · intro s hs
      rw [Finset.mem_filter] at hs
      exact Nat.div_mul_cancel (Nat.dvd_of_mod_eq_zero hs.2.1)
    · intro q _
      exact Nat.mul_div_cancel q hh
  rw [hcard, Finset.card_range]
  omega

/-- Configuration of the STFT/ISTFT processor (spec section 6). -/
structure STFTParams where
  n_fft : ℕ
  win_length : ℕ
  hop_length : ℕ
  window : ℕ → ℝ
  center : Bool

/-- Amount of symmetric padding applied before framing (spec section 4.1). -/
def STFTParams.pad (P : STFTParams) : ℕ := if P.center then P.n_fft / 2 else 0

/-- Offset of the `win_length` window inside the `n_fft` buffer. -/
def STFTParams.ofs (P : STFTParams) : ℕ := (P.n_fft - P.win_length) / 2

/-- Padded signal length seen by the framer. -/
def STFTParams.padded (P : STFTParams) (N : ℕ) : ℕ := N + 2 * P.pad

/-- Modelled from the spec (section 4.1): sample `t` of the windowed,
zero-padded frame starting at position `s` of the padded signal `xp`. -/
def frameSample (P : STFTParams) (xp : ℕ → ℝ) (s t : ℕ) : ℝ :=
  wPad P.window P.win_length P.n_fft t * xp (s + t - P.ofs)

/-- Modelled from the spec (sections 4.2–4.3): DFT bin `k` of the windowed
frame starting at `s` (defined for every `k`; the STFT matrix stores only the
non-redundant bins `k ≤ n_fft/2`). -/
def dftFrame (P : STFTParams) (xp : ℕ → ℝ) (s k : ℕ) : ℂ :=
  ∑ t ∈ Finset.range P.n_fft, (frameSample P xp s t : ℂ) * cexp P.n_fft (-((k : ℤ) * t))

/-- Modelled from the spec (section 4.3): the STFT of a waveform `x` of length
`N` — frame `m`, bin `k` of the complex time-frequency matrix. -/
def stft (P : STFTParams) (x : ℕ → ℝ) (N : ℕ) (m k : ℕ) : ℂ :=
  dftFrame P (padSig x N P.pad) (m * P.hop_length) k

/-- Modelled from the spec (section 4.3): the full conjugate-symmetric
spectrum reconstructed from the stored half-spectrum. -/
def fullSpec (n : ℕ) (S : ℕ → ℂ) (k : ℕ) : ℂ :=
  if k ≤ n / 2 then S k else star (S (n - k))

/-- Modelled from the spec (sections 4.2–4.3): inverse FFT of a reconstructed
full spectrum, with the `1/n` normalization on the inverse. -/
def ifftFrame (n : ℕ) (S : ℕ → ℂ) (t : ℕ) : ℂ :=
  (1 / n : ℂ) * ∑ k ∈ Finset.range n, fullSpec n S k * cexp n ((k : ℤ) * t)

/-- Modelled from the spec (section 4.3): overlap-add accumulator — the sum
over frames of the synthesis-windowed inverse-FFT samples landing at padded
position `p`. -/
def olaNum (P : STFTParams) (S : ℕ → ℕ → ℂ) (F p : ℕ) : ℝ :=
  ∑ m ∈ Finset.range F,
    if m * P.hop_length ≤ p + P.ofs ∧ p + P.ofs < m * P.hop_length + P.n_fft then
      wPad P.window P.win_length P.n_fft (p + P.ofs - m * P.hop_length) *
        (ifftFrame P.n_fft (S m) (p + P.ofs - m * P.hop_length)).re
    else 0

/-- Modelled from the spec (section 4.3): the accumulated squared-window
energy at padded position `p` (the window-normalization denominator). -/
def olaDen (P : STFTParams) (F p : ℕ) : ℝ :=
  ∑ m ∈ Finset.range F,
    if m * P.hop_length ≤ p + P.ofs ∧ p + P.ofs < m * P.hop_length + P.n_fft then
      wPad P.window P.win_length P.n_fft (p + P.ofs - m * P.hop_length) ^ 2
    else 0

/-- Modelled from the spec (section 4.3): the ISTFT — inverse FFT per frame,
synthesis windowing, overlap-add, division by the accumulated squared-window
energy, and stripping of the center padding.  Positions with zero accumulated
window energy are left at zero (in that case the numerator vanishes as well
and the division yields zero). -/
def istft (P : STFTParams) (S : ℕ → ℕ → ℂ) (N : ℕ) (t : ℕ) : ℝ :=
  olaNum P S (numFrames (P.padded N) P.n_fft P.hop_length) (t + P.pad) /
    olaDen P (numFrames (P.padded N) P.n_fft P.hop_length) (t + P.pad)

/-- Root-mean-square error between two length-`N` sample sequences. -/
def rmsError (N : ℕ) (a b : ℕ → ℝ) : ℝ :=
  Real.sqrt ((∑ t ∈ Finset.range N, (a t - b t) ^ 2) / N)

/-- Full DFT of a real length-`n` buffer (the forward FFT of the spec's FFT
engine applied to a windowed frame). -/
def dftReal (n : ℕ) (g : ℕ → ℝ) (k : ℕ) : ℂ :=
  ∑ t ∈ Finset.range n, (g t : ℂ) * cexp n (-((k : ℤ) * t))

theorem stft_eq_dftReal (P : STFTParams) (x : ℕ → ℝ) (N m : ℕ) :
    stft P x N m
      = dftReal P.n_fft (frameSample P (padSig x N P.pad) (m * P.hop_length)) := rfl

theorem star_cexp (n : ℕ) (a : ℤ) : star (cexp n a) = cexp n (-a) := by
  unfold cexp
  rw [show (star (Complex.exp (2 * (Real.pi : ℂ) * Complex.I * a / n)) : ℂ)
      = (starRingEnd ℂ) (Complex.exp (2 * (Real.pi : ℂ) * Complex.I * a / n)) from rfl,
    ← Complex.exp_conj]
  congr 1
  simp only [map_div₀, map_mul, map_ofNat, Complex.conj_ofReal, Complex.conj_I,
    map_intCast, map_natCast]
  push_cast
  ring_nf

theorem star_ofReal (r : ℝ) : star ((r : ℂ)) = (r : ℂ) := Complex.conj_ofReal r

/-- Conjugate symmetry of the DFT of a real buffer: bin `n - k` is the
conjugate of bin `k`. -/
theorem dftReal_conj (n : ℕ) (hn : 0 < n) (g : ℕ → ℝ) (k : ℕ) (hk : k ≤ n) :
    star (dftReal n g (n - k)) = dftReal n g k := by
  unfold dftReal
  rw [star_sum]
  apply Finset.sum_congr rfl
  intro t _
  rw [star_mul', star_ofReal, star_cexp]
  congr 1
  have hcast : ((n - k : ℕ) : ℤ) = (n : ℤ) - k := by
    exact_mod_cast Int.ofNat_sub hk
  have harg : -(-(((n - k : ℕ) : ℤ) * t)) = -((k : ℤ) * t) + (n : ℤ) * t := by
    rw [hcast]; ring
  rw [harg, cexp_add, cexp_int_mul n hn t, mul_one]

/-- The conjugate-symmetric extension of the stored half-spectrum of a real
buffer recovers the full DFT. -/
theorem fullSpec_dftReal (n : ℕ) (hn : 0 < n) (g : ℕ → ℝ) (k : ℕ) (hk : k < n) :
    fullSpec n (dftReal n g) k = dftReal n g k := by
  unfold fullSpec
  by_cases hhalf : k ≤ n / 2
  · rw [if_pos hhalf]
  · rw [if_neg hhalf]
    have hnk : n - (n - k) = k := by omega
    have := dftReal_conj n hn g k (le_of_lt hk)
    calc star (dftReal n g (n - k))
        = star (dftReal n g (n - k)) := rfl
      _ = dftReal n g k := by
          have h2 : (n - k) ≤ n := by omega
          have := dftReal_conj n hn g (n - k) h2
          rw [hnk] at this
          rw [← this, star_star]

/-- Exact inversion: the inverse FFT of the (half-spectrum-reconstructed) DFT
of a real buffer returns the buffer, sample for sample. -/
theorem ifft_dftReal (n : ℕ) (hn : 0 < n) (g : ℕ → ℝ) (t : ℕ) (ht : t < n) :
    ifftFrame n (dftReal n g) t = (g t : ℂ) := by
  unfold ifftFrame
  have hfull : ∀ k ∈ Finset.range n,
      fullSpec n (dftReal n g) k * cexp n ((k : ℤ) * t)
        = dftReal n g k * cexp n ((k : ℤ) * t) := by
    intro k hk
    rw [fullSpec_dftReal n hn g k (Finset.mem_range.mp hk)]
  rw [Finset.sum_congr rfl hfull]
  have hkey : ∑ k ∈ Finset.range n, dftReal n g k * cexp n ((k : ℤ) * t)
      = (g t : ℂ) * n := by
    unfold dftReal
    calc ∑ k ∈ Finset.range n,
          (∑ s ∈ Finset.range n, (g s : ℂ) * cexp n (-((k : ℤ) * s))) * cexp n ((k : ℤ) * t)
        = ∑ k ∈ Finset.range n, ∑ s ∈ Finset.range n,
            (g s : ℂ) * cexp n (((t : ℤ) - s) * k) := by
          apply Finset.sum_congr rfl
          intro k _
          rw [Finset.sum_mul]
          apply Finset.sum_congr rfl
          intro s _
          rw [mul_assoc, ← cexp_add]
          congr 1
          ring_nf
      _ = ∑ s ∈ Finset.range n, ∑ k ∈ Finset.range n,
            (g s : ℂ) * cexp n (((t : ℤ) - s) * k) := Finset.sum_comm
      _ = ∑ s ∈ Finset.range n,
            (g s : ℂ) * (if (n : ℤ) ∣ ((t : ℤ) - s) then (n : ℂ) else 0) := by
          apply Finset.sum_congr rfl
          intro s _
          rw [← Finset.mul_sum, sum_cexp n hn]
      _ = (g t : ℂ) * n := by
          rw [Finset.sum_eq_single t]
          · rw [if_pos (by simp)]
          · intro s hs hne
            rw [if_neg, mul_zero]
            intro hdvd
            have hs' : s < n := Finset.mem_range.mp hs
            have habs : |(t : ℤ) - s| < n := by
              rw [abs_lt]
              constructor <;> omega
            have := Int.eq_zero_of_abs_lt_dvd hdvd habs
            have : t = s := by omega
            exact hne (this.symm)
          · intro ht'
            exact absurd (Finset.mem_range.mpr ht) ht'
  rw [hkey]
  have hne : (n : ℂ) ≠ 0 := by exact_mod_cast hn.ne'
  field_simp

/-- Overlap-add identity: feeding the STFT into the overlap-add accumulator
yields the padded signal scaled pointwise by the accumulated window energy. -/
theorem olaNum_eq (P : STFTParams) (x : ℕ → ℝ) (N : ℕ) (hn : 0 < P.n_fft) (F p : ℕ) :
    olaNum P (stft P x N) F p = padSig x N P.pad p * olaDen P F p := by
  unfold olaNum olaDen
  rw [Finset.mul_sum]
  apply Finset.sum_congr rfl
  intro m _
  by_cases hc : m * P.hop_length ≤ p + P.ofs ∧ p + P.ofs < m * P.hop_length + P.n_fft
  · rw [if_pos hc, if_pos hc]
    have ht0n : p + P.ofs - m * P.hop_length < P.n_fft := by omega
    have hifft : (ifftFrame P.n_fft (stft P x N m) (p + P.ofs - m * P.hop_length)).re
        = frameSample P (padSig x N P.pad) (m * P.hop_length)
            (p + P.ofs - m * P.hop_length) := by
      rw [stft_eq_dftReal, ifft_dftReal P.n_fft hn _ _ ht0n, Complex.ofReal_re]
    rw [hifft]
    unfold frameSample
    have hidx : m * P.hop_length + (p + P.ofs - m * P.hop_length) - P.ofs = p := by
      omega
    rw [hidx]
    ring
  · rw [if_neg hc, if_neg hc, mul_zero]

/-- Exact reconstruction of every sample whose accumulated window energy is
positive: the ISTFT of the STFT returns the original sample. -/
theorem istft_stft_sample (P : STFTParams) (x : ℕ → ℝ) (N : ℕ) (hn : 0 < P.n_fft)
    (t : ℕ) (ht : t < N)
    (hcov : olaDen P (numFrames (P.padded N) P.n_fft P.hop_length) (t + P.pad) ≠ 0) :
    istft P (stft P x N) N t = x t := by
  unfold istft
  rw [olaNum_eq P x N hn, mul_div_assoc, div_self hcov, mul_one]
  unfold padSig
  have h1 : P.pad ≤ t + P.pad := by omega
  have h2 : t + P.pad < P.pad + N := by omega
  rw [if_pos ⟨h1, h2⟩, Nat.add_sub_cancel]

/-- Frequency-scale convention for mel conversion (spec section 4.4): HTK or
Slaney. -/
inductive MelScale
  | htk
  | slaney

/-- Modelled from the spec (section 4.4): HTK hz→mel conversion,
`mel = 2595·log10(1 + f/700)`. -/
def hzToMelHTK (f : ℝ) : ℝ := 2595 * Real.logb 10 (1 + f / 700)

/-- Modelled from the spec (section 4.4): HTK mel→hz conversion, the inverse
of `hzToMelHTK`. -/
def melToHzHTK (m : ℝ) : ℝ := 700 * ((10 : ℝ) ^ (m / 2595 : ℝ) - 1)

/-- Modelled from the spec (section 4.4): Slaney hz→mel conversion — linear
below 1000 Hz (200/3 Hz per mel), logarithmic above with step `log(6.4)/27`. -/
def hzToMelSlaney (f : ℝ) : ℝ :=
  if f < 1000 then 3 * f / 200 else 15 + Real.log (f / 1000) * 27 / Real.log 6.4

/-- Modelled from the spec (section 4.4): Slaney mel→hz conversion, the
inverse of `hzToMelSlaney`. -/
def melToHzSlaney (m : ℝ) : ℝ :=
  if m < 15 then 200 * m / 3 else 1000 * Real.exp ((m - 15) * Real.log 6.4 / 27)

/-- Hz→mel under the chosen convention. -/
def hzToMel : MelScale → ℝ → ℝ
  | MelScale.htk => hzToMelHTK
  | MelScale.slaney => hzToMelSlaney

/-- Mel→hz under the chosen convention. -/
def melToHz : MelScale → ℝ → ℝ
  | MelScale.htk => melToHzHTK
  | MelScale.slaney => melToHzSlaney

/-- Configuration of the mel filterbank builder (spec section 4.4). -/
structure MelParams where
  sr : ℝ
  n_fft : ℕ
  n_mels : ℕ
  fmin : ℝ
  fmax : ℝ
  normSlaney : Bool
  scale : MelScale

/-- Number of stored (non-redundant) FFT bins, `n_fft/2 + 1`. -/
def MelParams.nBins (Q : MelParams) : ℕ := Q.n_fft / 2 + 1

/-- Modelled from the spec (section 4.4): the `j`-th of the `n_mels + 2`
equally spaced band-edge points in mel scale between `mel(fmin)` and
`mel(fmax)`. -/
def melPointMel (Q : MelParams) (j : ℕ) : ℝ :=
  hzToMel Q.scale Q.fmin +
    j * (hzToMel Q.scale Q.fmax - hzToMel Q.scale Q.fmin) / (Q.n_mels + 1)

/-- Band-edge point `j` converted back to Hz. -/
def melPointHz (Q : MelParams) (j : ℕ) : ℝ := melToHz Q.scale (melPointMel Q j)

/-- Modelled from the spec (section 4.4): map a frequency in Hz to an FFT bin
index, `bin = ⌊(n_fft + 1) · hz / sr⌋`. -/
def hzToBin (sr : ℝ) (nfft : ℕ) (f : ℝ) : ℕ := ⌊(nfft + 1 : ℝ) * f / sr⌋₊

/-- FFT bin index of band-edge point `j`. -/
def melBin (Q : MelParams) (j : ℕ) : ℕ := hzToBin Q.sr Q.n_fft (melPointHz Q j)

/-- Modelled from the spec (section 4.4): unnormalized triangular weight of
filterbank row `i` at FFT bin `k` — the positive part of the smaller of the
rising ramp from `bin[i]` and the falling ramp to `bin[i+2]`. -/
def melWeightRaw (Q : MelParams) (i k : ℕ) : ℝ :=
  max 0 (min
    (((k : ℝ) - melBin Q i) / ((melBin Q (i + 1) : ℝ) - melBin Q i))
    (((melBin Q (i + 2) : ℝ) - k) / ((melBin Q (i + 2) : ℝ) - melBin Q (i + 1))))

/-- Width in Hz of one FFT bin under the bin-index convention of the spec. -/
def binWidth (Q : MelParams) : ℝ := Q.sr / (Q.n_fft + 1)

/-- Area under row `i` of the unnormalized filterbank: sum of weight × bin
width in Hz (spec section 8). -/
def rowArea (Q : MelParams) (i : ℕ) : ℝ :=
  ∑ k ∈ Finset.range Q.nBins, melWeightRaw Q i k * binWidth Q

/-- Modelled from the spec (section 4.4): filterbank weight after the optional
`norm = "slaney"` step, which rescales each row so that its area under the
triangle in Hz is 1. -/
def melWeight (Q : MelParams) (i k : ℕ) : ℝ :=
  if Q.normSlaney then melWeightRaw Q i k / rowArea Q i else melWeightRaw Q i k

/-- Modelled from the spec (sections 3 and 4.4): the mel filterbank as a
matrix — a list of `n_mels` rows of `n_fft/2 + 1` weights, a pure function of
the `(sr, n_fft, n_mels, norm, scale)` configuration, consuming no audio. -/
def buildMelFilterbank (Q : MelParams) : List (List ℝ) :=
  (List.range Q.n_mels).map (fun i => (List.range Q.nBins).map (fun k => melWeight Q i k))

/-- Magnitude (`power = 1`) or power (`power = 2`) of a complex STFT bin. -/
def powSpec (power : ℕ) (z : ℂ) : ℝ := Complex.abs z ^ power

/-- Modelled from the spec (section 4.5): the mel-spectrogram — the STFT
power spectrum projected through the mel filterbank,
`mel[i,t] = Σ_k filterbank[i,k] · |stft[k,t]|^power`. -/
def melSpectrogram (P : STFTParams) (Q : MelParams) (power : ℕ)
    (x : ℕ → ℝ) (N : ℕ) (i t : ℕ) : ℝ :=
  ∑ k ∈ Finset.range Q.nBins, melWeight Q i k * powSpec power (stft P x N t k)

/-- Modelled from the spec (section 4.6): the additive epsilon of the log
compression step, preventing `log 0` on silent frames.  The spec fixes no
particular value, only that it is a small positive constant. -/
def logEps : ℝ := 1e-10

/-- Modelled from the spec (section 4.6): log compression of the
mel-spectrogram, `log(mel + epsilon)`. -/
def logMel (P : STFTParams) (Q : MelParams) (power : ℕ)
    (x : ℕ → ℝ) (N : ℕ) (i t : ℕ) : ℝ :=
  Real.log (melSpectrogram P Q power x N i t + logEps)

/-- Modelled from the spec (section 4.6): orthonormal DCT-II coefficient
weight (`dct_type = 2`), index `nn`, input position `i`, length `nm`. -/
def dctIIOrtho (nm nn i : ℕ) : ℝ :=
  (if nn = 0 then Real.sqrt (1 / nm) else Real.sqrt (2 / nm)) *
    Real.cos (Real.pi * nn * (2 * i + 1) / (2 * nm))

/-- Modelled from the spec (section 4.6): unliftered MFCC — orthonormal
DCT-II of the log-mel-spectrogram along the mel-band axis, per frame. -/
def mfccRaw (P : STFTParams) (Q : MelParams) (power : ℕ)
    (x : ℕ → ℝ) (N : ℕ) (nn t : ℕ) : ℝ :=
  ∑ i ∈ Finset.range Q.n_mels, dctIIOrtho Q.n_mels nn i * logMel P Q power x N i t

/-- Modelled from the spec (section 4.6): the cepstral liftering multiplier —
`1 + (lifter/2)·sin(π·n/lifter)` for coefficient indices `n ≥ 1` when
`lifter > 0`, and `1` (no scaling) otherwise. -/
def liftWeight (lifter : ℝ) (nn : ℕ) : ℝ :=
  if 0 < lifter ∧ 1 ≤ nn then 1 + lifter / 2 * Real.sin (Real.pi * nn / lifter) else 1

/-- Modelled from the spec (section 4.6): the MFCC matrix with optional
liftering. -/
def mfcc (P : STFTParams) (Q : MelParams) (power : ℕ) (lifter : ℝ)
    (x : ℕ → ℝ) (N : ℕ) (nn t : ℕ) : ℝ :=
  liftWeight lifter nn * mfccRaw P Q power x N nn t

/-- Error kinds of the pipeline (spec section 7).  `NumericDegenerate`
situations (silent/zero frames) are handled via the epsilon and are not
errors, so no constructor exists for them. -/
inductive FeatureError
  | invalidConfig
  | insufficientSamples
deriving DecidableEq

/-- Full pipeline configuration (spec section 6, explicit with no hidden
defaults).  Scalar numeric fields are rationals — the finite machine values a
call site can pass — so that configuration validation is decidable; the
numeric core itself works over the reals. -/
structure FeatConfig where
  sr : ℚ
  n_fft : ℕ
  win_length : ℕ
  hop_length : ℕ
  n_mels : ℕ
  n_mfcc : ℕ
  window : ℕ → ℝ
  center : Bool
  power : ℕ
  fmin : ℚ
  fmax : ℚ
  lifter : ℚ
  scale : MelScale
  normSlaney : Bool

/-- Modelled from the spec (section 7): a configuration is valid when none of
the listed `InvalidConfig` conditions (`hop_length ≤ 0`, `win_length > n_fft`,
`n_mels < 1`, `fmax ≤ fmin`) holds. -/
def configOk (c : FeatConfig) : Prop :=
  0 < c.hop_length ∧ c.win_length ≤ c.n_fft ∧ 1 ≤ c.n_mels ∧ c.fmin < c.fmax

instance (c : FeatConfig) : Decidable (configOk c) := by
  unfold configOk
  infer_instance

/-- STFT parameters of a full configuration. -/
def FeatConfig.toSTFT (c : FeatConfig) : STFTParams :=
  ⟨c.n_fft, c.win_length, c.hop_length, c.window, c.center⟩

/-- Mel filterbank parameters of a full configuration. -/
def FeatConfig.toMel (c : FeatConfig) : MelParams :=
  ⟨(c.sr : ℝ), c.n_fft, c.n_mels, (c.fmin : ℝ), (c.fmax : ℝ), c.normSlaney, c.scale⟩

/-- Modelled from the spec (sections 4.1 and 7): minimum waveform length for
one frame — `n_fft` samples when not centered; with `center` the symmetric
padding compensates, so any length is accepted. -/
def minSamples (c : FeatConfig) : ℕ := if c.center then 0 else c.n_fft

/-- Modelled from the spec (section 7): the STFT entry point with eager,
fail-fast validation — configuration errors are detected before any transform
work, then sample sufficiency, and only then is the transform run. -/
def stftE (c : FeatConfig) (x : List ℝ) : Except FeatureError (ℕ → ℕ → ℂ) :=
  if ¬ configOk c then Except.error FeatureError.invalidConfig
  else if x.length < minSamples c then Except.error FeatureError.insufficientSamples
  else Except.ok (stft c.toSTFT (fun t => x.getD t 0) x.length)

/-- Modelled from the spec (section 7): the mel-spectrogram entry point with
eager validation. -/
def melSpectrogramE (c : FeatConfig) (x : List ℝ) : Except FeatureError (ℕ → ℕ → ℝ) :=
  if ¬ configOk c then Except.error FeatureError.invalidConfig
  else if x.length < minSamples c then Except.error FeatureError.insufficientSamples
  else Except.ok (melSpectrogram c.toSTFT c.toMel c.power (fun t => x.getD t 0) x.length)

/-- Modelled from the spec (section 7): the MFCC entry point with eager
validation. -/
def mfccE (c : FeatConfig) (x : List ℝ) : Except FeatureError (ℕ → ℕ → ℝ) :=
  if ¬ configOk c then Except.error FeatureError.invalidConfig
  else if x.length < minSamples c then Except.error FeatureError.insufficientSamples
  else Except.ok (mfcc c.toSTFT c.toMel c.power (c.lifter : ℝ) (fun t => x.getD t 0) x.length)

/-- STFT parameters used by the STFT/ISTFT script: `n_fft = 512`,
`win_length = 512`, `hop_length = 160`, Hann window, `center = true`. -/
def scriptP : STFTParams := ⟨512, 512, 160, hann 512, true⟩

/-- STFT parameters used by the mel-spectrogram and MFCC scripts
(`center = false`, otherwise as `scriptP`). -/
def scriptPnc : STFTParams := ⟨512, 512, 160, hann 512, false⟩

/-- Mel parameters of the mel-spectrogram script: `sr = 16000`,
`n_fft = 512`, `n_mels = 50`, default band limits `0 .. sr/2`,
`norm = "slaney"`, `htk = false`. -/
def scriptQ : MelParams := ⟨16000, 512, 50, 0, 8000, true, MelScale.slaney⟩

/-- Mel parameters of the filterbank script (`htk = true`,
`norm = "slaney"`). -/
def scriptQhtk : MelParams := ⟨16000, 512, 50, 0, 8000, true, MelScale.htk⟩

theorem melWeightRaw_nonneg (Q : MelParams) (i k : ℕ) : 0 ≤ melWeightRaw Q i k :=
  le_max_left 0 _

theorem binWidth_nonneg (Q : MelParams) (hsr : 0 ≤ Q.sr) : 0 ≤ binWidth Q :=
  div_nonneg hsr (by positivity)

theorem rowArea_nonneg (Q : MelParams) (i : ℕ) (hsr : 0 ≤ Q.sr) : 0 ≤ rowArea Q i :=
  Finset.sum_nonneg fun k _ => mul_nonneg (melWeightRaw_nonneg Q i k) (binWidth_nonneg Q hsr)

theorem melWeight_nonneg (Q : MelParams) (i k : ℕ) (hsr : 0 ≤ Q.sr) :
    0 ≤ melWeight Q i k := by
  unfold melWeight
  by_cases hb : Q.normSlaney
  · rw [if_pos hb]
    exact div_nonneg (melWeightRaw_nonneg Q i k) (rowArea_nonneg Q i hsr)
  · rw [if_neg hb]
    exact melWeightRaw_nonneg Q i k

theorem powSpec_nonneg (power : ℕ) (z : ℂ) : 0 ≤ powSpec power z :=
  pow_nonneg (AbsoluteValue.nonneg Complex.abs z) power

theorem melSpectrogram_nonneg (P : STFTParams) (Q : MelParams) (power : ℕ)
    (x : ℕ → ℝ) (N : ℕ) (i t : ℕ) (hsr : 0 ≤ Q.sr) :
    0 ≤ melSpectrogram P Q power x N i t :=
  Finset.sum_nonneg fun k _ =>
    mul_nonneg (melWeight_nonneg Q i k hsr) (powSpec_nonneg power _)

/-- Claim C2: for every waveform of length `N` framed without centering, the
number of STFT frames is `1 + ⌊(N - n_fft)/hop_length⌋`; in particular the
mel-spectrogram script's configuration (`N = 16000`, `n_fft = 512`,
`hop_length = 160`) yields 97 frames. -/
theorem claim_C2 (P : STFTParams) (N : ℕ) (hc : P.center = false)
    (hh : 0 < P.hop_length) (hN : P.n_fft ≤ N) :
    numFrames (P.padded N) P.n_fft P.hop_length = 1 + (N - P.n_fft) / P.hop_length ∧
      numFrames 16000 512 160 = 97 := by
  have hpad : P.pad = 0 := by simp [STFTParams.pad, hc]
  have hM : P.padded N = N := by simp [STFTParams.padded, hpad]
  constructor
  · rw [hM]
    exact numFrames_eq N P.n_fft P.hop_length hN hh
  · rw [numFrames_eq 16000 512 160 (by norm_num) (by norm_num)]

theorem claim_C2_witness :
    scriptPnc.center = false ∧ 0 < scriptPnc.hop_length ∧ scriptPnc.n_fft ≤ 16000 ∧
      (numFrames (scriptPnc.padded 16000) scriptPnc.n_fft scriptPnc.hop_length
          = 1 + (16000 - scriptPnc.n_fft) / scriptPnc.hop_length ∧
        numFrames 16000 512 160 = 97) :=
  ⟨rfl, by norm_num [scriptPnc], by norm_num [scriptPnc],
    claim_C2 scriptPnc 16000 rfl (by norm_num [scriptPnc]) (by norm_num [scriptPnc])⟩

/-- Claim C5: when `lifter > 0` the MFCC extractor multiplies coefficient
`c_n` (`n ≥ 1`) by `1 + (lifter/2)·sin(π·n/lifter)`, leaves `c_0` unscaled,
and applies no scaling when `lifter = 0`. -/
theorem claim_C5 (P : STFTParams) (Q : MelParams) (power : ℕ) (lifter : ℝ)
    (x : ℕ → ℝ) (N t : ℕ) :
    (0 < lifter → ∀ nn, 1 ≤ nn →
        mfcc P Q power lifter x N nn t
          = (1 + lifter / 2 * Real.sin (Real.pi * nn / lifter)) *
              mfccRaw P Q power x N nn t) ∧
      mfcc P Q power lifter x N 0 t = mfccRaw P Q power x N 0 t ∧
      (lifter = 0 → ∀ nn, mfcc P Q power lifter x N nn t = mfccRaw P Q power x N nn t) := by
  refine ⟨?_, ?_, ?_⟩
  · intro hl nn hnn
    unfold mfcc liftWeight
    rw [if_pos ⟨hl, hnn⟩]
  · unfold mfcc liftWeight
    rw [if_neg (by omega), one_mul]
  · intro hl nn
    unfold mfcc liftWeight
    rw [if_neg (by rw [hl]; intro h; exact lt_irrefl 0 h.1), one_mul]

theorem claim_C5_witness :
    0 < (1 : ℝ) ∧ 1 ≤ 1 ∧
      mfcc scriptPnc scriptQ 2 1 (fun _ => 0) 16000 1 0
        = (1 + 1 / 2 * Real.sin (Real.pi * ((1 : ℕ) : ℝ) / 1)) *
            mfccRaw scriptPnc scriptQ 2 (fun _ => 0) 16000 1 0 :=
  ⟨by norm_num, by norm_num,
    (claim_C5 scriptPnc scriptQ 2 1 (fun _ => 0) 16000 0).1 (by norm_num) 1 (by norm_num)⟩

/-- Claim C6: the MFCC extractor compresses the mel-spectrogram with
`log(mel + epsilon)` elementwise before the DCT-II; the epsilon is positive,
the log argument is therefore positive on every entry, and each log-mel value
is bounded below by `log epsilon` (no `-inf`). -/
theorem claim_C6 (P : STFTParams) (Q : MelParams) (power : ℕ)
    (x : ℕ → ℝ) (N nn t : ℕ) (hsr : 0 ≤ Q.sr) :
    mfccRaw P Q power x N nn t
      = ∑ i ∈ Finset.range Q.n_mels, dctIIOrtho Q.n_mels nn i *
          Real.log (melSpectrogram P Q power x N i t + logEps) ∧
      0 < logEps ∧
      (∀ i, 0 < melSpectrogram P Q power x N i t + logEps) ∧
      (∀ i, Real.log logEps ≤ logMel P Q power x N i t) := by
  refine ⟨rfl, by norm_num [logEps], fun i => ?_, fun i => ?_⟩
  · have := melSpectrogram_nonneg P Q power x N i t hsr
    have hpos : (0 : ℝ) < logEps := by norm_num [logEps]
    linarith
  · unfold logMel
    apply Real.log_le_log (by norm_num [logEps])
    have := melSpectrogram_nonneg P Q power x N i t hsr
    linarith

theorem claim_C6_witness :
    (0 : ℝ) ≤ scriptQ.sr ∧
      (mfccRaw scriptPnc scriptQ 2 (fun _ => 0) 16000 0 0
          = ∑ i ∈ Finset.range scriptQ.n_mels, dctIIOrtho scriptQ.n_mels 0 i *
              Real.log (melSpectrogram scriptPnc scriptQ 2 (fun _ => 0) 16000 i 0 + logEps) ∧
        0 < logEps ∧
        (∀ i, 0 < melSpectrogram scriptPnc scriptQ 2 (fun _ => 0) 16000 i 0 + logEps) ∧
        (∀ i, Real.log logEps ≤ logMel scriptPnc scriptQ 2 (fun _ => 0) 16000 i 0)) :=
  ⟨by norm_num [scriptQ],
    claim_C6 scriptPnc scriptQ 2 (fun _ => 0) 16000 0 0 (by norm_num [scriptQ])⟩

/-- Claim C8: every entry of the mel-spectrogram matrix is non-negative, for
every input waveform and every configuration with a non-negative sample
rate. -/
theorem claim_C8 (P : STFTParams) (Q : MelParams) (power : ℕ)
    (x : ℕ → ℝ) (N i t : ℕ) (hsr : 0 ≤ Q.sr) :
    0 ≤ melSpectrogram P Q power x N i t :=
  melSpectrogram_nonneg P Q power x N i t hsr

theorem claim_C8_witness :
    (0 : ℝ) ≤ scriptQ.sr ∧ 0 ≤ melSpectrogram scriptPnc scriptQ 2 (fun _ => 0) 16000 0 0 :=
  ⟨by norm_num [scriptQ],
    claim_C8 scriptPnc scriptQ 2 (fun _ => 0) 16000 0 0 (by norm_num [scriptQ])⟩

/-- Claim C10: with the script's `lifter = 0.2`, the liftering multiplier
`1 + (lifter/2)·sin(π·n/lifter)` equals 1 at every integer coefficient index
(`sin(5·π·n) = 0`), so liftering is the identity and the MFCC output equals
the unliftered (and the `lifter = 0`) output. -/
theorem claim_C10 (P : STFTParams) (Q : MelParams) (power : ℕ) (x : ℕ → ℝ) (N : ℕ) :
    (∀ nn : ℕ, liftWeight (0.2 : ℝ) nn = 1) ∧
      (∀ nn t, mfcc P Q power (0.2 : ℝ) x N nn t = mfccRaw P Q power x N nn t) ∧
      (∀ nn t, mfcc P Q power (0.2 : ℝ) x N nn t = mfcc P Q power 0 x N nn t) := by
  have hw : ∀ nn : ℕ, liftWeight (0.2 : ℝ) nn = 1 := by
    intro nn
    unfold liftWeight
    by_cases hnn : 1 ≤ nn
    · rw [if_pos ⟨by norm_num, hnn⟩]
      have harg : Real.pi * nn / 0.2 = ((5 * nn : ℕ) : ℝ) * Real.pi := by
        push_cast
        ring
      rw [harg, Real.sin_nat_mul_pi, mul_zero, add_zero]
    · rw [if_neg (fun h => hnn h.2)]
  have hzero : ∀ nn : ℕ, liftWeight (0 : ℝ) nn = 1 := by
    intro nn
    unfold liftWeight
    rw [if_neg (fun h => lt_irrefl 0 h.1)]
  refine ⟨hw, fun nn t => ?_, fun nn t => ?_⟩
  · unfold mfcc
    rw [hw nn, one_mul]
  · unfold mfcc
    rw [hw nn, hzero nn]

theorem buildMelFilterbank_length (Q : MelParams) :
    (buildMelFilterbank Q).length = Q.n_mels := by
  simp [buildMelFilterbank]

theorem buildMelFilterbank_row_length (Q : MelParams) (i : ℕ) (hi : i < Q.n_mels) :
    ((buildMelFilterbank Q).getD i []).length = Q.n_fft / 2 + 1 := by
  unfold buildMelFilterbank
  rw [List.getD_eq_getElem?_getD, List.getElem?_map, List.getElem?_range hi]
  simp [MelParams.nBins]

/-- Claim C7: the filterbank builder is a pure function of its parameters —
the same parameters always yield the same matrix and no audio input is
consumed (its arguments are the configuration alone) — and the resulting
matrix has shape `n_mels × (n_fft/2 + 1)`, in particular `50 × 257` for the
filterbank script's configuration. -/
theorem claim_C7 (Q : MelParams) :
    (buildMelFilterbank Q).length = Q.n_mels ∧
      (∀ i, i < Q.n_mels → ((buildMelFilterbank Q).getD i []).length = Q.n_fft / 2 + 1) ∧
      (∀ Q' : MelParams, Q = Q' → buildMelFilterbank Q = buildMelFilterbank Q') ∧
      (buildMelFilterbank scriptQhtk).length = 50 ∧
      (∀ i, i < 50 → ((buildMelFilterbank scriptQhtk).getD i []).length = 257) := by
  refine ⟨buildMelFilterbank_length Q, fun i hi => buildMelFilterbank_row_length Q i hi,
    fun Q' h => by rw [h], ?_, fun i hi => ?_⟩
  · rw [buildMelFilterbank_length]
    rfl
  · rw [buildMelFilterbank_row_length scriptQhtk i (by exact hi)]
    rfl

theorem claim_C7_witness :
    0 < 50 ∧ ((buildMelFilterbank scriptQhtk).getD 0 []).length = 257 :=
  ⟨by norm_num, (claim_C7 scriptQhtk).2.2.2.2 0 (by norm_num)⟩

/-- Claim C9: invalid configurations (`hop_length ≤ 0`, `win_length > n_fft`,
`n_mels < 1`, or `fmax ≤ fmin`) make every pipeline entry point return the
`InvalidConfig` error before any transform work, with no partial output; a
waveform too short for even one frame yields `InsufficientSamples`; a silent
(all-zero) waveform of sufficient length raises no error. -/
theorem claim_C9 (c : FeatConfig) (x : List ℝ) :
    (¬ configOk c →
        stftE c x = Except.error FeatureError.invalidConfig ∧
        melSpectrogramE c x = Except.error FeatureError.invalidConfig ∧
        mfccE c x = Except.error FeatureError.invalidConfig) ∧
      (configOk c → x.length < minSamples c →
        stftE c x = Except.error FeatureError.insufficientSamples ∧
        melSpectrogramE c x = Except.error FeatureError.insufficientSamples ∧
        mfccE c x = Except.error FeatureError.insufficientSamples) ∧
      (configOk c → ∀ N, minSamples c ≤ N →
        (∃ S, stftE c (List.replicate N 0) = Except.ok S) ∧
        (∃ M, melSpectrogramE c (List.replicate N 0) = Except.ok M) ∧
        (∃ C, mfccE c (List.replicate N 0) = Except.ok C)) := by
  refine ⟨fun hbad => ?_, fun hok hshort => ?_, fun hok N hN => ?_⟩
  · unfold stftE melSpectrogramE mfccE
    rw [if_pos hbad, if_pos hbad, if_pos hbad]
    exact ⟨rfl, rfl, rfl⟩
  · unfold stftE melSpectrogramE mfccE
    simp only [if_neg (not_not_intro hok), if_pos hshort]
    exact ⟨trivial, trivial, trivial⟩
  · have hlen : (List.replicate N (0 : ℝ)).length = N := List.length_replicate N 0
    have hfit : ¬ ((List.replicate N (0 : ℝ)).length < minSamples c) := by
      rw [hlen]; omega
    unfold stftE melSpectrogramE mfccE
    simp only [if_neg (not_not_intro hok), if_neg hfit]
    exact ⟨⟨_, rfl⟩, ⟨_, rfl⟩, ⟨_, rfl⟩⟩

/-- Invalid configuration used in the C9 witness: `hop_length = 0`. -/
def badConfig : FeatConfig :=
  ⟨16000, 512, 512, 0, 50, 13, hann 512, false, 2, 0, 8000, 1/5, MelScale.slaney, true⟩

theorem claim_C9_witness :
    ¬ configOk badConfig ∧
      (stftE badConfig [] = Except.error FeatureError.invalidConfig ∧
        melSpectrogramE badConfig [] = Except.error FeatureError.invalidConfig ∧
        mfccE badConfig [] = Except.error FeatureError.invalidConfig) :=
  ⟨by decide, (claim_C9 badConfig []).1 (by decide)⟩

theorem melWeightRaw_peak (Q : MelParams) (i : ℕ)
    (h01 : melBin Q i < melBin Q (i + 1)) (h12 : melBin Q (i + 1) < melBin Q (i + 2)) :
    melWeightRaw Q i (melBin Q (i + 1)) = 1 := by
  unfold melWeightRaw
  have hb01 : (0 : ℝ) < (melBin Q (i + 1) : ℝ) - melBin Q i := by
    rw [sub_pos]
    exact_mod_cast h01
  have hb12 : (0 : ℝ) < (melBin Q (i + 2) : ℝ) - melBin Q (i + 1) := by
    rw [sub_pos]
    exact_mod_cast h12
  rw [div_self hb01.ne', div_self hb12.ne']
  norm_num

theorem melWeightRaw_rising (Q : MelParams) (i k : ℕ)
    (h01 : melBin Q i < melBin Q (i + 1)) (h12 : melBin Q (i + 1) < melBin Q (i + 2))
    (hk0 : melBin Q i ≤ k) (hk1 : k ≤ melBin Q (i + 1)) :
    melWeightRaw Q i k
      = ((k : ℝ) - melBin Q i) / ((melBin Q (i + 1) : ℝ) - melBin Q i) := by
  unfold melWeightRaw
  have hb01 : (0 : ℝ) < (melBin Q (i + 1) : ℝ) - melBin Q i := by
    rw [sub_pos]; exact_mod_cast h01
  have hb12 : (0 : ℝ) < (melBin Q (i + 2) : ℝ) - melBin Q (i + 1) := by
    rw [sub_pos]; exact_mod_cast h12
  have hrise_nonneg : 0 ≤ ((k : ℝ) - melBin Q i) / ((melBin Q (i + 1) : ℝ) - melBin Q i) := by
    apply div_nonneg _ hb01.le
    rw [sub_nonneg]
    exact_mod_cast hk0
  have hrise_le_one : ((k : ℝ) - melBin Q i) / ((melBin Q (i + 1) : ℝ) - melBin Q i) ≤ 1 := by
    rw [div_le_one hb01]
    have : (k : ℝ) ≤ (melBin Q (i + 1) : ℝ) := by exact_mod_cast hk1
    linarith
  have hfall_ge_one :
      1 ≤ ((melBin Q (i + 2) : ℝ) - k) / ((melBin Q (i + 2) : ℝ) - melBin Q (i + 1)) := by
    rw [le_div_iff₀ hb12, one_mul]
    have : (k : ℝ) ≤ (melBin Q (i + 1) : ℝ) := by exact_mod_cast hk1
    linarith
  rw [min_eq_left (le_trans hrise_le_one hfall_ge_one), max_eq_right hrise_nonneg]

theorem melWeightRaw_falling (Q : MelParams) (i k : ℕ)
    (h01 : melBin Q i < melBin Q (i + 1)) (h12 : melBin Q (i + 1) < melBin Q (i + 2))
    (hk1 : melBin Q (i + 1) ≤ k) (hk2 : k ≤ melBin Q (i + 2)) :
    melWeightRaw Q i k
      = ((melBin Q (i + 2) : ℝ) - k) / ((melBin Q (i + 2) : ℝ) - melBin Q (i + 1)) := by
  unfold melWeightRaw
  have hb01 : (0 : ℝ) < (melBin Q (i + 1) : ℝ) - melBin Q i := by
    rw [sub_pos]; exact_mod_cast h01
  have hb12 : (0 : ℝ) < (melBin Q (i + 2) : ℝ) - melBin Q (i + 1) := by
    rw [sub_pos]; exact_mod_cast h12
  have hfall_nonneg :
      0 ≤ ((melBin Q (i + 2) : ℝ) - k) / ((melBin Q (i + 2) : ℝ) - melBin Q (i + 1)) := by
    apply div_nonneg _ hb12.le
    rw [sub_nonneg]
    exact_mod_cast hk2
  have hfall_le_one :
      ((melBin Q (i + 2) : ℝ) - k) / ((melBin Q (i + 2) : ℝ) - melBin Q (i + 1)) ≤ 1 := by
    rw [div_le_one hb12]
    have : (melBin Q (i + 1) : ℝ) ≤ (k : ℝ) := by exact_mod_cast hk1
    linarith
  have hrise_ge_one : 1 ≤ ((k : ℝ) - melBin Q i) / ((melBin Q (i + 1) : ℝ) - melBin Q i) := by
    rw [le_div_iff₀ hb01, one_mul]
    have : (melBin Q (i + 1) : ℝ) ≤ (k : ℝ) := by exact_mod_cast hk1
    linarith
  rw [min_eq_right (le_trans hfall_le_one hrise_ge_one), max_eq_right hfall_nonneg]

theorem melWeightRaw_outside (Q : MelParams) (i k : ℕ)
    (h01 : melBin Q i < melBin Q (i + 1)) (h12 : melBin Q (i + 1) < melBin Q (i + 2))
    (hout : k < melBin Q i ∨ melBin Q (i + 2) < k) :
    melWeightRaw Q i k = 0 := by
  unfold melWeightRaw
  have hb01 : (0 : ℝ) < (melBin Q (i + 1) : ℝ) - melBin Q i := by
    rw [sub_pos]; exact_mod_cast h01
  have hb12 : (0 : ℝ) < (melBin Q (i + 2) : ℝ) - melBin Q (i + 1) := by
    rw [sub_pos]; exact_mod_cast h12
  rcases hout with hlt | hgt
  · have hnum : (k : ℝ) - melBin Q i ≤ 0 := by
      rw [sub_nonpos]
      exact_mod_cast hlt.le
    have hmin : min (((k : ℝ) - melBin Q i) / ((melBin Q (i + 1) : ℝ) - melBin Q i))
        (((melBin Q (i + 2) : ℝ) - k) / ((melBin Q (i + 2) : ℝ) - melBin Q (i + 1))) ≤ 0 :=
      le_trans (min_le_left _ _) (div_nonpos_iff.mpr (Or.inr ⟨hnum, hb01.le⟩))
    rw [max_eq_left hmin]
  · have hnum : (melBin Q (i + 2) : ℝ) - k ≤ 0 := by
      rw [sub_nonpos]
      exact_mod_cast hgt.le
    have hmin : min (((k : ℝ) - melBin Q i) / ((melBin Q (i + 1) : ℝ) - melBin Q i))
        (((melBin Q (i + 2) : ℝ) - k) / ((melBin Q (i + 2) : ℝ) - melBin Q (i + 1))) ≤ 0 :=
      le_trans (min_le_right _ _) (div_nonpos_iff.mpr (Or.inr ⟨hnum, hb12.le⟩))
    rw [max_eq_left hmin]

theorem rowArea_pos (Q : MelParams) (i : ℕ)
    (h01 : melBin Q i < melBin Q (i + 1)) (h12 : melBin Q (i + 1) < melBin Q (i + 2))
    (h2n : melBin Q (i + 2) ≤ Q.n_fft / 2) (hsr : 0 < Q.sr) :
    0 < rowArea Q i := by
  have hΔ : 0 < binWidth Q := div_pos hsr (by positivity)
  have hmem : melBin Q (i + 1) ∈ Finset.range Q.nBins := by
    rw [Finset.mem_range]
    unfold MelParams.nBins
    omega
  calc (0 : ℝ) < binWidth Q := hΔ
    _ = melWeightRaw Q i (melBin Q (i + 1)) * binWidth Q := by
        rw [melWeightRaw_peak Q i h01 h12, one_mul]
    _ ≤ rowArea Q i :=
        Finset.single_le_sum
          (fun k _ => mul_nonneg (melWeightRaw_nonneg Q i k) hΔ.le) hmem

theorem rowArea_norm (Q : MelParams) (i : ℕ)
    (hnorm : Q.normSlaney = true) (hA : rowArea Q i ≠ 0) :
    ∑ k ∈ Finset.range Q.nBins, melWeight Q i k * binWidth Q = 1 := by
  unfold melWeight
  rw [hnorm]
  calc ∑ k ∈ Finset.range Q.nBins,
        (if True then melWeightRaw Q i k / rowArea Q i else melWeightRaw Q i k) * binWidth Q
      = ∑ k ∈ Finset.range Q.nBins, melWeightRaw Q i k * binWidth Q / rowArea Q i := by
        apply Finset.sum_congr rfl
        intro k _
        rw [if_pos trivial]
        ring
    _ = rowArea Q i / rowArea Q i := by
        rw [← Finset.sum_div]
        rfl
    _ = 1 := div_self hA

/-- Claim C3: each filterbank row's peak weight (at its center bin) equals 1
before normalization, and with `norm = "slaney"` each row is rescaled so that
its area under the triangle in Hz equals 1 — stated for every configuration
whose band-edge bins are strictly increasing and in range. -/
theorem claim_C3 (Q : MelParams) (i : ℕ)
    (h01 : melBin Q i < melBin Q (i + 1)) (h12 : melBin Q (i + 1) < melBin Q (i + 2))
    (h2n : melBin Q (i + 2) ≤ Q.n_fft / 2) (hsr : 0 < Q.sr)
    (hnorm : Q.normSlaney = true) :
    melWeightRaw Q i (melBin Q (i + 1)) = 1 ∧
      ∑ k ∈ Finset.range Q.nBins, melWeight Q i k * binWidth Q = 1 :=
  ⟨melWeightRaw_peak Q i h01 h12,
    rowArea_norm Q i hnorm (rowArea_pos Q i h01 h12 h2n hsr).ne'⟩

/-- The hz→mel and mel→hz conversions are mutually inverse on non-negative
mel values, for both scale conventions. -/
theorem hzToMel_melToHz (s : MelScale) (m : ℝ) :
    hzToMel s (melToHz s m) = m := by
  cases s
  case htk =>
    show hzToMelHTK (melToHzHTK m) = m
    unfold hzToMelHTK melToHzHTK
    have harg : 1 + 700 * ((10 : ℝ) ^ (m / 2595 : ℝ) - 1) / 700
        = (10 : ℝ) ^ (m / 2595 : ℝ) := by
      field_simp
    rw [harg, Real.logb_rpow (by norm_num) (by norm_num)]
    ring
  case slaney =>
    show hzToMelSlaney (melToHzSlaney m) = m
    unfold hzToMelSlaney melToHzSlaney
    by_cases hlt : m < 15
    · rw [if_pos hlt, if_pos (by linarith), ]
      ring
    · rw [if_neg hlt]
      have hL : 0 < Real.log 6.4 := Real.log_pos (by norm_num)
      have hargn : 0 ≤ (m - 15) * Real.log 6.4 / 27 := by
        apply div_nonneg (mul_nonneg (by linarith) hL.le) (by norm_num)
      have hexp : (1 : ℝ) ≤ Real.exp ((m - 15) * Real.log 6.4 / 27) := by
        calc (1 : ℝ) = Real.exp 0 := Real.exp_zero.symm
          _ ≤ Real.exp ((m - 15) * Real.log 6.4 / 27) := Real.exp_le_exp.mpr hargn
      have hge : (1000 : ℝ) ≤ 1000 * Real.exp ((m - 15) * Real.log 6.4 / 27) := by
        linarith
      rw [if_neg (not_lt.mpr hge)]
      have hdiv : 1000 * Real.exp ((m - 15) * Real.log 6.4 / 27) / 1000
          = Real.exp ((m - 15) * Real.log 6.4 / 27) := by
        field_simp
      rw [hdiv, Real.log_exp]
      field_simp

/-- Claim C4: band-edge placement and triangle shape of the filterbank — the
`n_mels + 2` Hz points are equally spaced in mel scale between `mel(fmin)`
and `mel(fmax)`, each is mapped to the bin `⌊(n_fft+1)·hz/sr⌋`, and row `i`
rises linearly from `bin[i]` to `bin[i+1]`, falls linearly from `bin[i+1]` to
`bin[i+2]`, and is zero outside that interval. -/
theorem claim_C4 (Q : MelParams) (i j : ℕ)
    (h01 : melBin Q i < melBin Q (i + 1)) (h12 : melBin Q (i + 1) < melBin Q (i + 2)) :
    hzToMel Q.scale (melPointHz Q j)
        = hzToMel Q.scale Q.fmin +
            j * (hzToMel Q.scale Q.fmax - hzToMel Q.scale Q.fmin) / (Q.n_mels + 1) ∧
      melBin Q j = ⌊(Q.n_fft + 1 : ℝ) * melPointHz Q j / Q.sr⌋₊ ∧
      (∀ k, melBin Q i ≤ k → k ≤ melBin Q (i + 1) →
        melWeightRaw Q i k
          = ((k : ℝ) - melBin Q i) / ((melBin Q (i + 1) : ℝ) - melBin Q i)) ∧
      (∀ k, melBin Q (i + 1) ≤ k → k ≤ melBin Q (i + 2) →
        melWeightRaw Q i k
          = ((melBin Q (i + 2) : ℝ) - k) /
              ((melBin Q (i + 2) : ℝ) - melBin Q (i + 1))) ∧
      (∀ k, k < melBin Q i ∨ melBin Q (i + 2) < k → melWeightRaw Q i k = 0) := by
  refine ⟨?_, rfl, fun k hk0 hk1 => melWeightRaw_rising Q i k h01 h12 hk0 hk1,
    fun k hk1 hk2 => melWeightRaw_falling Q i k h01 h12 hk1 hk2,
    fun k hout => melWeightRaw_outside Q i k h01 h12 hout⟩
  unfold melPointHz
  rw [hzToMel_melToHz Q.scale _]
  rfl

/-- Small filterbank configuration used by the C3/C4 witnesses: Slaney scale
with `fmin = 0`, `fmax = 1000` (entirely in the linear region, so every
band-edge value is exactly computable), one mel band, `sr = 16000`,
`n_fft = 512`. -/
def wQ : MelParams := ⟨16000, 512, 1, 0, 1000, true, MelScale.slaney⟩

theorem wQ_point (j : ℕ) : melPointMel wQ j = j * 15 / 2 := by
  unfold melPointMel
  have h1 : hzToMel wQ.scale wQ.fmin = 0 := by
    show hzToMelSlaney 0 = 0
    unfold hzToMelSlaney
    rw [if_pos (by norm_num)]
    norm_num
  have h2 : hzToMel wQ.scale wQ.fmax = 15 := by
    show hzToMelSlaney 1000 = 15
    unfold hzToMelSlaney
    rw [if_neg (by norm_num)]
    norm_num
  rw [h1, h2]
  show (0 : ℝ) + j * (15 - 0) / ((wQ.n_mels : ℝ) + 1) = j * 15 / 2
  norm_num [wQ]

theorem wQ_hz0 : melPointHz wQ 0 = 0 := by
  unfold melPointHz
  have h0 : melPointMel wQ 0 = 0 := by rw [wQ_point]; norm_num
  rw [h0]
  show melToHzSlaney 0 = 0
  unfold melToHzSlaney
  rw [if_pos (by norm_num)]
  norm_num

theorem wQ_hz1 : melPointHz wQ 1 = 500 := by
  unfold melPointHz
  have h1 : melPointMel wQ 1 = 15 / 2 := by rw [wQ_point]; norm_num
  rw [h1]
  show melToHzSlaney (15 / 2) = 500
  unfold melToHzSlaney
  rw [if_pos (by norm_num)]
  norm_num

theorem wQ_hz2 : melPointHz wQ 2 = 1000 := by
  unfold melPointHz
  have h2 : melPointMel wQ 2 = 15 := by rw [wQ_point]; norm_num
  rw [h2]
  show melToHzSlaney 15 = 1000
  unfold melToHzSlaney
  rw [if_neg (by norm_num)]
  norm_num [Real.exp_zero]

theorem wQ_bin0 : melBin wQ 0 = 0 := by
  unfold melBin
  rw [wQ_hz0]
  show ⌊(wQ.n_fft + 1 : ℝ) * 0 / wQ.sr⌋₊ = 0
  norm_num

theorem wQ_bin1 : melBin wQ 1 = 16 := by
  unfold melBin
  rw [wQ_hz1]
  show ⌊(wQ.n_fft + 1 : ℝ) * 500 / wQ.sr⌋₊ = 16
  have hval : (wQ.n_fft + 1 : ℝ) * 500 / wQ.sr = 513 * 500 / 16000 := by
    norm_num [wQ]
  rw [hval, Nat.floor_eq_iff (by positivity)]
  norm_num

theorem wQ_bin2 : melBin wQ 2 = 32 := by
  unfold melBin
  rw [wQ_hz2]
  show ⌊(wQ.n_fft + 1 : ℝ) * 1000 / wQ.sr⌋₊ = 32
  have hval : (wQ.n_fft + 1 : ℝ) * 1000 / wQ.sr = 513 * 1000 / 16000 := by
    norm_num [wQ]
  rw [hval, Nat.floor_eq_iff (by positivity)]
  norm_num

theorem claim_C3_witness :
    (melBin wQ 0 < melBin wQ 1 ∧ melBin wQ 1 < melBin wQ 2 ∧
        melBin wQ 2 ≤ wQ.n_fft / 2 ∧ (0 : ℝ) < wQ.sr ∧ wQ.normSlaney = true) ∧
      (melWeightRaw wQ 0 (melBin wQ (0 + 1)) = 1 ∧
        ∑ k ∈ Finset.range wQ.nBins, melWeight wQ 0 k * binWidth wQ = 1) :=
  ⟨⟨by rw [wQ_bin0, wQ_bin1]; norm_num,
    by rw [wQ_bin1, wQ_bin2]; norm_num,
    by rw [wQ_bin2]; norm_num [wQ],
    by norm_num [wQ], rfl⟩,
    claim_C3 wQ 0
      (by show melBin wQ 0 < melBin wQ 1; rw [wQ_bin0, wQ_bin1]; norm_num)
      (by show melBin wQ 1 < melBin wQ 2; rw [wQ_bin1, wQ_bin2]; norm_num)
      (by show melBin wQ 2 ≤ wQ.n_fft / 2; rw [wQ_bin2]; norm_num [wQ])
      (by norm_num [wQ]) rfl⟩

theorem claim_C4_witness :
    (melBin wQ 0 < melBin wQ 1 ∧ melBin wQ 1 < melBin wQ 2) ∧
      (hzToMel wQ.scale (melPointHz wQ 1)
          = hzToMel wQ.scale wQ.fmin +
              1 * (hzToMel wQ.scale wQ.fmax - hzToMel wQ.scale wQ.fmin) / (wQ.n_mels + 1) ∧
        melBin wQ 1 = ⌊(wQ.n_fft + 1 : ℝ) * melPointHz wQ 1 / wQ.sr⌋₊ ∧
        (∀ k, melBin wQ 0 ≤ k → k ≤ melBin wQ (0 + 1) →
          melWeightRaw wQ 0 k
            = ((k : ℝ) - melBin wQ 0) / ((melBin wQ (0 + 1) : ℝ) - melBin wQ 0)) ∧
        (∀ k, melBin wQ (0 + 1) ≤ k → k ≤ melBin wQ (0 + 2) →
          melWeightRaw wQ 0 k
            = ((melBin wQ (0 + 2) : ℝ) - k) /
                ((melBin wQ (0 + 2) : ℝ) - melBin wQ (0 + 1))) ∧
        (∀ k, k < melBin wQ 0 ∨ melBin wQ (0 + 2) < k → melWeightRaw wQ 0 k = 0)) :=
  ⟨⟨by rw [wQ_bin0, wQ_bin1]; norm_num,
    by rw [wQ_bin1, wQ_bin2]; norm_num⟩,
    by
      have h := claim_C4 wQ 0 1
        (by show melBin wQ 0 < melBin wQ 1; rw [wQ_bin0, wQ_bin1]; norm_num)
        (by show melBin wQ 1 < melBin wQ 2; rw [wQ_bin1, wQ_bin2]; norm_num)
      have hcast : ((1 : ℕ) : ℝ) = 1 := Nat.cast_one
      rw [hcast] at h
      exact h⟩

theorem olaDen_pos (P : STFTParams) (F p m : ℕ) (hm : m < F)
    (hc : m * P.hop_length ≤ p + P.ofs ∧ p + P.ofs < m * P.hop_length + P.n_fft)
    (hw : wPad P.window P.win_length P.n_fft (p + P.ofs - m * P.hop_length) ≠ 0) :
    0 < olaDen P F p := by
  unfold olaDen
  have hterm : (0 : ℝ) <
      (if m * P.hop_length ≤ p + P.ofs ∧ p + P.ofs < m * P.hop_length + P.n_fft then
        wPad P.window P.win_length P.n_fft (p + P.ofs - m * P.hop_length) ^ 2
      else 0) := by
    rw [if_pos hc]
    positivity
  apply lt_of_lt_of_le hterm
  apply Finset.single_le_sum _ (Finset.mem_range.mpr hm)
  intro i _
  by_cases hci :
      i * P.hop_length ≤ p + P.ofs ∧ p + P.ofs < i * P.hop_length + P.n_fft
  · rw [if_pos hci]
    positivity
  · rw [if_neg hci]

/-- Claim C1, amended: for every waveform `x` and every valid configuration
with `center = true` and `hop_length ≤ win_length` whose accumulated
squared-window energy is positive at every sample position (the overlap-add
coverage condition; it holds for the STFT script's configuration but can fail
for `hop_length = win_length` with a Hann window, whose first coefficient is
zero), the ISTFT of the STFT reconstructs `x` exactly, hence within 1e-5 RMS
error. -/
theorem claim_C1 (P : STFTParams) (x : ℕ → ℝ) (N : ℕ)
    (hn : 0 < P.n_fft) (_hh : 0 < P.hop_length) (_hwin : P.win_length ≤ P.n_fft)
    (_hhw : P.hop_length ≤ P.win_length) (_hc : P.center = true)
    (hcov : ∀ t, t < N →
      olaDen P (numFrames (P.padded N) P.n_fft P.hop_length) (t + P.pad) ≠ 0) :
    rmsError N x (istft P (stft P x N) N) ≤ 1e-5 := by
  have hzero : ∀ t ∈ Finset.range N, (x t - istft P (stft P x N) N t) ^ 2 = 0 := by
    intro t ht
    rw [istft_stft_sample P x N hn t (Finset.mem_range.mp ht)
      (hcov t (Finset.mem_range.mp ht))]
    ring
  unfold rmsError
  rw [Finset.sum_eq_zero hzero, zero_div, Real.sqrt_zero]
  norm_num

/-- STFT configuration of the C1 witness: `n_fft = win_length = 4`,
`hop_length = 1`, Hann window, centered. -/
def wP1 : STFTParams := ⟨4, 4, 1, hann 4, true⟩

theorem hann4_2 : hann 4 2 = 1 := by
  unfold hann
  have harg : 2 * Real.pi * (2 : ℕ) / (4 : ℕ) = Real.pi := by
    push_cast
    ring
  rw [harg, Real.cos_pi]
  norm_num

theorem hann4_0 : hann 4 0 = 0 := by
  unfold hann
  have harg : 2 * Real.pi * (0 : ℕ) / (4 : ℕ) = 0 := by
    push_cast
    ring
  rw [harg, Real.cos_zero]
  norm_num

theorem wPad_hann4_2 : wPad (hann 4) 4 4 2 = 1 := by
  unfold wPad
  rw [if_pos (by norm_num)]
  exact hann4_2

theorem wPad_hann4_0 : wPad (hann 4) 4 4 0 = 0 := by
  unfold wPad
  rw [if_pos (by norm_num)]
  exact hann4_0

theorem wP1_cov : ∀ t, t < 3 →
    olaDen wP1 (numFrames (wP1.padded 3) wP1.n_fft wP1.hop_length) (t + wP1.pad) ≠ 0 := by
  intro t ht
  have hF : numFrames (wP1.padded 3) wP1.n_fft wP1.hop_length = 4 := by decide
  rw [hF]
  have hpad : wP1.pad = 2 := rfl
  rw [hpad]
  apply ne_of_gt
  apply olaDen_pos wP1 4 (t + 2) t (by omega)
  · have hhop : wP1.hop_length = 1 := rfl
    have hofs : wP1.ofs = 0 := rfl
    have hnf : wP1.n_fft = 4 := rfl
    rw [hhop, hofs, hnf]
    omega
  · have hidx : t + 2 + wP1.ofs - t * wP1.hop_length = 2 := by
      have hhop : wP1.hop_length = 1 := rfl
      have hofs : wP1.ofs = 0 := rfl
      rw [hhop, hofs]
      omega
    rw [hidx]
    show wPad (hann 4) 4 4 2 ≠ 0
    rw [wPad_hann4_2]
    norm_num

theorem claim_C1_witness :
    (0 < wP1.n_fft ∧ 0 < wP1.hop_length ∧ wP1.win_length ≤ wP1.n_fft ∧
        wP1.hop_length ≤ wP1.win_length ∧ wP1.center = true ∧
        (∀ t, t < 3 →
          olaDen wP1 (numFrames (wP1.padded 3) wP1.n_fft wP1.hop_length)
            (t + wP1.pad) ≠ 0)) ∧
      rmsError 3 (fun t => (t : ℝ)) (istft wP1 (stft wP1 (fun t => (t : ℝ)) 3) 3) ≤ 1e-5 :=
  ⟨⟨by norm_num [wP1], by norm_num [wP1], by norm_num [wP1], by norm_num [wP1], rfl, wP1_cov⟩,
    claim_C1 wP1 (fun t => (t : ℝ)) 3 (by norm_num [wP1]) (by norm_num [wP1])
      (by norm_num [wP1]) (by norm_num [wP1]) rfl wP1_cov⟩

/-- STFT configuration of the C1 counterexample: `hop_length = win_length =
n_fft = 4` (allowed by the claim, which only requires `hop ≤ win`), Hann
window, centered. -/
def cP : STFTParams := ⟨4, 4, 4, hann 4, true⟩

/-- Waveform of the C1 counterexample: a unit impulse at sample 2, whose
padded position has zero accumulated window energy under `cP`. -/
def cX : ℕ → ℝ := fun t => if t = 2 then 1 else 0

theorem cP_F : numFrames (cP.padded 5) cP.n_fft cP.hop_length = 2 := by decide

theorem cP_den : olaDen cP 2 4 = 0 := by
  unfold olaDen
  rw [Finset.sum_range_succ, Finset.sum_range_succ, Finset.sum_range_zero]
  have hhop : cP.hop_length = 4 := rfl
  have hofs : cP.ofs = 0 := rfl
  have hnf : cP.n_fft = 4 := rfl
  have hwin : cP.win_length = 4 := rfl
  have hw : cP.window = hann 4 := rfl
  rw [hhop, hofs, hnf, hwin, hw]
  rw [if_neg (by omega), if_pos (by omega)]
  have hidx : 4 + 0 - 1 * 4 = 0 := by omega
  rw [hidx, wPad_hann4_0]
  norm_num

theorem cP_num : olaNum cP (stft cP cX 5) 2 4 = 0 := by
  unfold olaNum
  rw [Finset.sum_range_succ, Finset.sum_range_succ, Finset.sum_range_zero]
  have hhop : cP.hop_length = 4 := rfl
  have hofs : cP.ofs = 0 := rfl
  have hnf : cP.n_fft = 4 := rfl
  have hwin : cP.win_length = 4 := rfl
  have hw : cP.window = hann 4 := rfl
  rw [hhop, hofs, hnf, hwin, hw]
  rw [if_neg (by omega), if_pos (by omega)]
  have hidx : 4 + 0 - 1 * 4 = 0 := by omega
  rw [hidx, wPad_hann4_0]
  norm_num

theorem cP_istft2 : istft cP (stft cP cX 5) 5 2 = 0 := by
  unfold istft
  rw [cP_F]
  have hpad : 2 + cP.pad = 4 := rfl
  rw [hpad, cP_num, cP_den]
  norm_num

/-- Counterexample to claim C1 as stated: the configuration `cP` is valid and
has `center = true` and `hop_length ≤ win_length`, yet the round trip loses
the impulse at sample 2 (its padded position gets zero accumulated window
energy because the Hann window vanishes at index 0), so the RMS error is
`√(1/5)`, far above 1e-5. -/
theorem claim_C1_cex :
    (0 < cP.n_fft ∧ 0 < cP.hop_length ∧ cP.win_length ≤ cP.n_fft ∧
        cP.hop_length ≤ cP.win_length ∧ cP.center = true) ∧
      ¬ (rmsError 5 cX (istft cP (stft cP cX 5) 5) ≤ 1e-5) := by
  refine ⟨⟨by norm_num [cP], by norm_num [cP], by norm_num [cP], by norm_num [cP], rfl⟩, ?_⟩
  rw [not_le]
  unfold rmsError
  have hsum : (1 : ℝ) ≤ ∑ t ∈ Finset.range 5, (cX t - istft cP (stft cP cX 5) 5 t) ^ 2 := by
    have h2 : (cX 2 - istft cP (stft cP cX 5) 5 2) ^ 2 = 1 := by
      rw [cP_istft2]
      unfold cX
      norm_num
    calc (1 : ℝ) = (cX 2 - istft cP (stft cP cX 5) 5 2) ^ 2 := h2.symm
      _ ≤ ∑ t ∈ Finset.range 5, (cX t - istft cP (stft cP cX 5) 5 t) ^ 2 := by
          rw [Finset.sum_range_succ, Finset.sum_range_succ, Finset.sum_range_succ,
            Finset.sum_range_succ, Finset.sum_range_succ, Finset.sum_range_zero]
          have h0 := sq_nonneg (cX 0 - istft cP (stft cP cX 5) 5 0)
          have h1 := sq_nonneg (cX 1 - istft cP (stft cP cX 5) 5 1)
          have h3 := sq_nonneg (cX 3 - istft cP (stft cP cX 5) 5 3)
          have h4 := sq_nonneg (cX 4 - istft cP (stft cP cX 5) 5 4)
          linarith
  have h15 : (1 : ℝ) / 5 ≤ (∑ t ∈ Finset.range 5, (cX t - istft cP (stft cP cX 5) 5 t) ^ 2) / 5 := by
    linarith
  calc (1e-5 : ℝ) < Real.sqrt (1 / 5) := by
        rw [show (1e-5 : ℝ) = Real.sqrt ((1e-5) ^ 2) from (Real.sqrt_sq (by norm_num)).symm]
        exact Real.sqrt_lt_sqrt (by norm_num) (by norm_num)
    _ ≤ Real.sqrt ((∑ t ∈ Finset.range 5, (cX t - istft cP (stft cP cX 5) 5 t) ^ 2) / 5) := by
        apply Real.sqrt_le_sqrt
        linarith

end AudioPipeline
